import Mathlib

/-!
# Evacuation planner: shallow embedding and verification

A shallow embedding of the evacuation-planner core (BFS pathfinder, heuristic
alternative routes, hazard-state management) together with the fixed building
graph dataset, and proofs of the specification's claims about them.

Modelling conventions:
* JavaScript `Set`s of strings become `List String` used only through
  membership (`contains`), with `Set.add` modelled as append-if-absent and
  `Set.delete` as `filter`.
* The JS object `hazardTypes` (string key → string value) becomes an
  association list `List (String × String)` with update-or-add semantics.
* `bfsEvacuate`'s queue of paths and visited set follow the source loop
  verbatim; the unbounded `while` loop is driven by a fuel parameter that
  strictly exceeds the possible number of queue pops (one initial path plus at
  most one push per adjacency-list entry, since each push consumes a
  never-revisited node), so the fuel-exhaustion branch is unreachable and
  exists only to make the recursion structural.
* The source's first `bfsEvacuate` parameter `graph` is unused in its body
  (callers pass `null` or the node table interchangeably) and is omitted.
-/

namespace Evac

/-- Edge key — always sorted for consistency (source `edgeKey`):
`[a, b].sort().join('::')`. -/
def edgeKey (a b : String) : String :=
  if a ≤ b then a ++ "::" ++ b else b ++ "::" ++ a

/-- Last element of a path, as the source's `path[path.length - 1]`
(every queued path is nonempty, so the default is never read). -/
def lastD (l : List String) : String :=
  l.getLastD ""

/-- `adjacency[current] || []`: neighbor list of a node, empty when absent. -/
def lookupAdj (adjacency : List (String × List String)) (n : String) : List String :=
  (adjacency.lookup n).getD []

/-- The neighbor loop of `bfsEvacuate`: for each neighbor in order, skip it if
visited, blocked, or reached over a blocked edge; otherwise mark it visited and
push the extended path at the back of the queue. -/
def enqueueNeighbors (bn be : List String) (path : List String) (current : String) :
    List String → List (List String) × List String → List (List String) × List String
  | [], acc => acc
  | n :: ns, (queue, visited) =>
    if visited.contains n then
      enqueueNeighbors bn be path current ns (queue, visited)
    else if bn.contains n then
      enqueueNeighbors bn be path current ns (queue, visited)
    else if be.contains (edgeKey current n) then
      enqueueNeighbors bn be path current ns (queue, visited)
    else
      enqueueNeighbors bn be path current ns (queue ++ [path ++ [n]], n :: visited)

/-- The `while (queue.length > 0)` loop of `bfsEvacuate`: pop the front path,
return it if it ends at an exit, otherwise enqueue its unvisited unblocked
neighbors and continue. -/
def bfsAux (adjacency : List (String × List String)) (exits bn be : List String) :
    Nat → List (List String) → List String → Option (List String)
  | 0, _, _ => none
  | _ + 1, [], _ => none
  | fuel + 1, path :: rest, visited =>
    let current := lastD path
    if exits.contains current then some path
    else
      let qv := enqueueNeighbors bn be path current (lookupAdj adjacency current)
        (rest, visited)
      bfsAux adjacency exits bn be fuel qv.1 qv.2

/-- Total number of adjacency-list entries: an upper bound on the number of
queue pushes a run of the BFS can perform. -/
def totalAdjSize (adjacency : List (String × List String)) : Nat :=
  (adjacency.map (fun p => p.2.length)).sum

/-- Fuel strictly exceeding the number of loop iterations any run can take. -/
def bfsFuel (adjacency : List (String × List String)) : Nat :=
  totalAdjSize adjacency + 2

/-- Source `bfsEvacuate(graph, adjacency, exits, start, blockedNodes,
blockedEdges)` with the unused `graph` parameter dropped: `null` when the start
is blocked, otherwise BFS from `[[start]]` with `start` visited. -/
def bfsEvacuate (adjacency : List (String × List String)) (exits : List String)
    (start : String) (bn be : List String) : Option (List String) :=
  if bn.contains start then none
  else bfsAux adjacency exits bn be (bfsFuel adjacency) [[start]] [start]

/-- The de-duplication key of `findAlternativePaths`: `path.join('->')`. -/
def joinPath (p : List String) : String :=
  String.intercalate "->" p

/-- Interior nodes of a path: indices `1 .. length - 2`, the range of the
source's inner `for (let j = 1; j < prevPath.length - 1; j++)` loop. -/
def interiorNodes (p : List String) : List String :=
  (p.drop 1).dropLast

/-- One pass of the inner loop of `findAlternativePaths`: block each interior
node of the previous path in turn, rerun the BFS, and return the first
resulting path whose join key is not yet used. -/
def tryInterior (adjacency : List (String × List String)) (exits : List String)
    (start : String) (bn be : List String) (used : List String) :
    List String → Option (List String)
  | [] => none
  | n :: ns =>
    match bfsEvacuate adjacency exits start (n :: bn) be with
    | some alt =>
      if used.contains (joinPath alt) then
        tryInterior adjacency exits start bn be used ns
      else some alt
    | none => tryInterior adjacency exits start bn be used ns

/-- The outer `for (let i = 1; i < count; i++)` loop of
`findAlternativePaths`: each slot perturbs the previously accepted path; a slot
that yields nothing new stops generation early. -/
def altLoop (adjacency : List (String × List String)) (exits : List String)
    (start : String) (bn be : List String) :
    Nat → List String → List (List String) → List String → List (List String)
  | 0, _, acc, _ => acc
  | k + 1, used, acc, prev =>
    match tryInterior adjacency exits start bn be used (interiorNodes prev) with
    | none => acc
    | some alt =>
      altLoop adjacency exits start bn be k (joinPath alt :: used) (acc ++ [alt]) alt

/-- Source `findAlternativePaths(adjacency, exits, start, blockedNodes,
blockedEdges, count = 3)`: the shortest route seeds the result and the
de-duplication set, then `count - 1` perturbation slots follow. -/
def findAlternativePaths (adjacency : List (String × List String))
    (exits : List String) (start : String) (bn be : List String)
    (count : Nat := 3) : List (List String) :=
  match bfsEvacuate adjacency exits start bn be with
  | none => []
  | some optimal =>
    altLoop adjacency exits start bn be (count - 1) [joinPath optimal] [optimal] optimal

-- ── Hazard state (source `state` object, hazard-relevant fields) ──

/-- The hazard-relevant fields of the source's global `state`: the sets
`hazardNodes` and `hazardEdges`, the map `hazardTypes`, and the currently
selected hazard kind used by `toggleHazard`. -/
structure HazardState where
  hazardNodes : List String
  hazardEdges : List String
  hazardTypes : List (String × String)
  selectedHazard : String
  deriving DecidableEq, Repr

/-- JS `Set.add`: append the element unless already present. -/
def insertStr (s : List String) (x : String) : List String :=
  if s.contains x then s else s ++ [x]

/-- JS object write `m[k] = v`: replace the binding of `k`, or append it. -/
def setType : List (String × String) → String → String → List (String × String)
  | [], k, v => [(k, v)]
  | (k', v') :: rest, k, v =>
    if k' = k then (k, v) :: rest else (k', v') :: setType rest k v

/-- JS `delete m[k]`: drop the binding of `k`. -/
def removeType (m : List (String × String)) (k : String) : List (String × String) :=
  m.filter (fun p => p.1 ≠ k)

/-- Source `applyHazard(nodeId, type)`: unconditionally adds the node to
`hazardNodes` and records its type (no start-node check in this function). -/
def applyHazard (nodeId ty : String) (s : HazardState) : HazardState :=
  { s with hazardNodes := insertStr s.hazardNodes nodeId,
           hazardTypes := setType s.hazardTypes nodeId ty }

/-- Source `removeHazard(nodeId)`: deletes the node from `hazardNodes` and its
binding from `hazardTypes`. -/
def removeHazard (nodeId : String) (s : HazardState) : HazardState :=
  { s with hazardNodes := s.hazardNodes.filter (· ≠ nodeId),
           hazardTypes := removeType s.hazardTypes nodeId }

/-- The evacuation start node (source `START_NODE`). -/
def START_NODE : String := "Control"

/-- Source `toggleHazard(nodeId)`: rejected with a warning (state unchanged)
for the start node; otherwise removes an existing hazard or applies the
currently selected one. -/
def toggleHazard (nodeId : String) (s : HazardState) : HazardState :=
  if nodeId = START_NODE then s
  else if s.hazardNodes.contains nodeId then removeHazard nodeId s
  else applyHazard nodeId s.selectedHazard s

/-- Source `resetAll()`: clears all three hazard containers (the timer and UI
work it also does has no hazard-state content). -/
def resetAll (s : HazardState) : HazardState :=
  { s with hazardNodes := [], hazardEdges := [], hazardTypes := [] }

/-- A hazard preset (source `HAZARD_PRESETS` entries). -/
structure Preset where
  nodes : List String
  edges : List (String × String)
  description : String
  deriving DecidableEq, Repr

/-- Source `applyPreset(presetName)` given the looked-up preset: reset, then
block every listed node with type `'fire'` and every listed edge by key. -/
def applyPresetData (p : Preset) (s : HazardState) : HazardState :=
  let s1 := resetAll s
  let s2 := p.nodes.foldl
    (fun st n =>
      { st with hazardNodes := insertStr st.hazardNodes n,
                hazardTypes := setType st.hazardTypes n "fire" }) s1
  p.edges.foldl
    (fun st e => { st with hazardEdges := insertStr st.hazardEdges (edgeKey e.1 e.2) }) s2

/-- The initial hazard state: empty sets, empty map, `'fire'` selected. -/
def initialState : HazardState :=
  { hazardNodes := [], hazardEdges := [], hazardTypes := [], selectedHazard := "fire" }

-- ── Building graph dataset (buildingGraph.js) ──

/-- A node of the building graph (source `NODES` entries). -/
structure Node where
  label : String
  floor : String
  ty : String
  deriving DecidableEq, Repr

/-- Source `NODES`: the node table of the fixed building graph. -/
def NODES : List (String × Node) :=
  [("Parking", ⟨"Parking", "B1", "room"⟩),
   ("Electrical", ⟨"Electrical Room", "B1", "room"⟩),
   ("Generator", ⟨"Generator Room", "B1", "room"⟩),
   ("StairB", ⟨"Stairwell B", "B1", "stair"⟩),
   ("EmergencyExit", ⟨"Emergency Exit", "B1", "exit"⟩),
   ("Entrance", ⟨"Entrance", "GF", "room"⟩),
   ("Reception", ⟨"Reception", "GF", "room"⟩),
   ("Hall", ⟨"Main Hall", "GF", "corridor"⟩),
   ("Control", ⟨"Control Room", "GF", "control"⟩),
   ("KitchenG", ⟨"Kitchen (GF)", "GF", "room"⟩),
   ("WashG", ⟨"Washroom (GF)", "GF", "room"⟩),
   ("StairG", ⟨"Stairwell G", "GF", "stair"⟩),
   ("ExitA", ⟨"Exit A", "GF", "exit"⟩),
   ("ExitB", ⟨"Exit B", "GF", "exit"⟩),
   ("Lobby1", ⟨"Lobby 1", "F1", "corridor"⟩),
   ("R101", ⟨"Room 101", "F1", "room"⟩),
   ("R102", ⟨"Room 102", "F1", "room"⟩),
   ("Office", ⟨"Office", "F1", "room"⟩),
   ("Wash1", ⟨"Washroom (F1)", "F1", "room"⟩),
   ("Storage", ⟨"Storage", "F1", "room"⟩),
   ("Stair1", ⟨"Stairwell 1", "F1", "stair"⟩),
   ("Lobby2", ⟨"Lobby 2", "F2", "corridor"⟩),
   ("R201", ⟨"Room 201", "F2", "room"⟩),
   ("R202", ⟨"Room 202", "F2", "room"⟩),
   ("Kitchen2", ⟨"Kitchen (F2)", "F2", "room"⟩),
   ("Wash2", ⟨"Washroom (F2)", "F2", "room"⟩),
   ("Server", ⟨"Server Room", "F2", "room"⟩),
   ("Stair2", ⟨"Stairwell 2", "F2", "stair"⟩),
   ("Lobby3", ⟨"Lobby 3", "F3", "corridor"⟩),
   ("R301", ⟨"Room 301", "F3", "room"⟩),
   ("R302", ⟨"Room 302", "F3", "room"⟩),
   ("R303", ⟨"Room 303", "F3", "room"⟩),
   ("Wash3", ⟨"Washroom (F3)", "F3", "room"⟩),
   ("Balcony3", ⟨"Balcony", "F3", "room"⟩),
   ("Stair3", ⟨"Stairwell 3", "F3", "stair"⟩)]

/-- Source `ADJACENCY`: the (directionally stored) adjacency table. -/
def ADJACENCY : List (String × List String) :=
  [("Parking", ["Electrical", "Generator", "StairB", "EmergencyExit"]),
   ("Electrical", ["Parking"]),
   ("Generator", ["Parking"]),
   ("StairB", ["Parking", "StairG"]),
   ("EmergencyExit", ["Parking"]),
   ("Entrance", ["Reception"]),
   ("Reception", ["Entrance", "Hall"]),
   ("Hall", ["Reception", "Control", "KitchenG", "WashG", "StairG", "ExitA", "ExitB"]),
   ("Control", ["Hall"]),
   ("KitchenG", ["Hall"]),
   ("WashG", ["Hall"]),
   ("StairG", ["Hall", "Stair1", "StairB"]),
   ("ExitA", ["Hall"]),
   ("ExitB", ["Hall"]),
   ("Lobby1", ["R101", "R102", "Office", "Wash1", "Storage", "Stair1"]),
   ("R101", ["Lobby1"]),
   ("R102", ["Lobby1"]),
   ("Office", ["Lobby1"]),
   ("Wash1", ["Lobby1"]),
   ("Storage", ["Lobby1"]),
   ("Stair1", ["Lobby1", "StairG", "Stair2"]),
   ("Lobby2", ["R201", "R202", "Kitchen2", "Wash2", "Server", "Stair2"]),
   ("R201", ["Lobby2"]),
   ("R202", ["Lobby2"]),
   ("Kitchen2", ["Lobby2"]),
   ("Wash2", ["Lobby2"]),
   ("Server", ["Lobby2"]),
   ("Stair2", ["Lobby2", "Stair1", "Stair3"]),
   ("Lobby3", ["R301", "R302", "R303", "Wash3", "Balcony3", "Stair3"]),
   ("R301", ["Lobby3"]),
   ("R302", ["Lobby3"]),
   ("R303", ["Lobby3"]),
   ("Wash3", ["Lobby3"]),
   ("Balcony3", ["Lobby3"]),
   ("Stair3", ["Lobby3", "Stair2"])]

/-- Source `EXITS` (a JS `Set`, modelled by membership in this list). -/
def EXITS : List String := ["ExitA", "ExitB", "EmergencyExit"]

/-- The node ids present in the Graph Store. -/
def nodeKeys : List String := NODES.map Prod.fst

/-- Every node id occurring in some adjacency list. -/
def allNeighbors (adjacency : List (String × List String)) : List String :=
  (adjacency.map Prod.snd).flatten

/-- Source `HAZARD_PRESETS`. -/
def HAZARD_PRESETS : List (String × Preset) :=
  [("Ground Floor Fire",
    ⟨["Hall", "KitchenG"], [],
     "Fire in Main Hall and Kitchen blocks main ground floor corridor"⟩),
   ("Exit A Blocked",
    ⟨["ExitA"], [],
     "Exit A is sealed — forces route to alternate exit"⟩),
   ("Full Lockdown",
    ⟨["ExitA", "ExitB", "EmergencyExit"], [],
     "All exits blocked — evacuation impossible"⟩),
   ("Stairwell Fire",
    ⟨["StairG", "Stair1"], [],
     "Stairwells G and 1 on fire — upper floors isolated"⟩),
   ("Smoke on F2",
    ⟨["Lobby2", "Server", "Kitchen2"], [],
     "Smoke fills Floor 2 corridor and adjacent rooms"⟩)]

/-- Source `applyPreset(presetName)`: looks the preset up by name and is a
no-op when the name is unknown. -/
def applyPreset (presetName : String) (s : HazardState) : HazardState :=
  match HAZARD_PRESETS.lookup presetName with
  | none => s
  | some p => applyPresetData p s

/-- The route the source's `_recalculate` derives from a hazard state:
`bfsEvacuate(NODES, ADJACENCY, EXITS, START_NODE, hazardNodes, hazardEdges)`. -/
def currentRoute (s : HazardState) : Option (List String) :=
  bfsEvacuate ADJACENCY EXITS START_NODE s.hazardNodes s.hazardEdges

-- ── Validity of routes (the spec's Route data-model invariant) ──

/-- One traversable step: `v` is listed as a neighbor of `u`, `v` is not a
blocked node, and the canonical key of the edge `(u, v)` is not blocked. -/
def validStep (adjacency : List (String × List String)) (bn be : List String)
    (u v : String) : Prop :=
  v ∈ lookupAdj adjacency u ∧ bn.contains v = false ∧
    be.contains (edgeKey u v) = false

instance (adjacency : List (String × List String)) (bn be : List String)
    (u v : String) : Decidable (validStep adjacency bn be u v) :=
  inferInstanceAs (Decidable (v ∈ lookupAdj adjacency u ∧ bn.contains v = false ∧
    be.contains (edgeKey u v) = false))

/-- A computably reducing decision procedure for `List.Chain'` (the library
instance is built by tactics and does not evaluate inside `decide`). -/
def decChainAux (R : String → String → Prop) [DecidableRel R] :
    (l : List String) → Decidable (List.Chain' R l)
  | [] => isTrue List.chain'_nil
  | [a] => isTrue (List.chain'_singleton a)
  | a :: b :: rest =>
    match decChainAux R (b :: rest) with
    | isTrue h =>
      if hr : R a b then isTrue (List.chain'_cons.mpr ⟨hr, h⟩)
      else isFalse (fun hc => hr (List.chain'_cons.mp hc).1)
    | isFalse h => isFalse (fun hc => h (List.chain'_cons.mp hc).2)

instance (adjacency : List (String × List String)) (bn be : List String) :
    DecidableRel (validStep adjacency bn be) :=
  fun _ _ => inferInstance

instance (R : String → String → Prop) [DecidableRel R] (l : List String) :
    Decidable (List.Chain' R l) :=
  decChainAux R l

/-- A hazard-avoiding walk from `start` to an exit: nonempty, headed by an
unblocked `start`, every consecutive step traversable, ending in the exit set
(no simplicity requirement). -/
def validWalk (adjacency : List (String × List String)) (exits : List String)
    (start : String) (bn be : List String) (w : List String) : Prop :=
  w.head? = some start ∧ bn.contains start = false ∧
    List.Chain' (validStep adjacency bn be) w ∧ exits.contains (lastD w) = true

/-- The spec's Route invariant: a valid walk that is also a simple path. -/
def isValidRoute (adjacency : List (String × List String)) (exits : List String)
    (start : String) (bn be : List String) (w : List String) : Prop :=
  validWalk adjacency exits start bn be w ∧ w.Nodup

instance (adjacency : List (String × List String)) (exits : List String)
    (start : String) (bn be : List String) (w : List String) :
    Decidable (validWalk adjacency exits start bn be w) :=
  inferInstanceAs (Decidable (w.head? = some start ∧ bn.contains start = false ∧
    List.Chain' (validStep adjacency bn be) w ∧ exits.contains (lastD w) = true))

instance (adjacency : List (String × List String)) (exits : List String)
    (start : String) (bn be : List String) (w : List String) :
    Decidable (isValidRoute adjacency exits start bn be w) :=
  inferInstanceAs (Decidable (validWalk adjacency exits start bn be w ∧ w.Nodup))

-- ── Basic list and set-model lemmas ──

theorem lastD_concat (l : List String) (a : String) : lastD (l ++ [a]) = a := by
  simp [lastD]

theorem lastD_singleton (a : String) : lastD [a] = a := rfl

theorem contains_iff_mem (l : List String) (x : String) :
    l.contains x = true ↔ x ∈ l := by
  simp

theorem contains_false_iff (l : List String) (x : String) :
    l.contains x = false ↔ x ∉ l := by
  rw [← Bool.not_eq_true, contains_iff_mem]

theorem mem_insertStr (l : List String) (a x : String) :
    x ∈ insertStr l a ↔ x = a ∨ x ∈ l := by
  unfold insertStr
  by_cases h : l.contains a = true
  · rw [if_pos h]
    have ha : a ∈ l := (contains_iff_mem l a).mp h
    constructor
    · exact fun hx => Or.inr hx
    · rintro (rfl | hx) <;> [exact ha; exact hx]
  · rw [if_neg h]
    simp [or_comm]

theorem contains_insertStr_self (l : List String) (a : String) :
    (insertStr l a).contains a = true := by
  rw [contains_iff_mem, mem_insertStr]; exact Or.inl rfl

theorem contains_insertStr_ne (l : List String) (a x : String) (h : x ≠ a) :
    (insertStr l a).contains x = l.contains x := by
  by_cases hx : x ∈ l
  · rw [(contains_iff_mem _ _).mpr hx,
      (contains_iff_mem _ _).mpr ((mem_insertStr l a x).mpr (Or.inr hx))]
  · rw [(contains_false_iff _ _).mpr hx, (contains_false_iff _ _).mpr]
    rw [mem_insertStr]
    rintro (rfl | hmem) <;> [exact h rfl; exact hx hmem]

theorem mem_filter_ne (l : List String) (a x : String) :
    x ∈ l.filter (· ≠ a) ↔ x ∈ l ∧ x ≠ a := by
  simp [List.mem_filter]

theorem contains_filter_ne (l : List String) (a x : String) (h : x ≠ a) :
    (l.filter (· ≠ a)).contains x = l.contains x := by
  by_cases hx : x ∈ l
  · rw [(contains_iff_mem _ _).mpr hx,
      (contains_iff_mem _ _).mpr ((mem_filter_ne l a x).mpr ⟨hx, h⟩)]
  · rw [(contains_false_iff _ _).mpr hx, (contains_false_iff _ _).mpr]
    exact fun hmem => hx ((mem_filter_ne l a x).mp hmem).1

theorem mem_keys_setType (m : List (String × String)) (k v x : String) :
    x ∈ (setType m k v).map Prod.fst ↔ x = k ∨ x ∈ m.map Prod.fst := by
  induction m with
  | nil => simp [setType]
  | cons p rest ih =>
    by_cases h : p.1 = k
    · simp only [setType, if_pos h, List.map_cons, List.mem_cons, ih]
      subst h
      constructor
      · rintro (rfl | hx) <;> [exact Or.inl rfl; exact Or.inr (Or.inr hx)]
      · rintro (rfl | rfl | hx) <;>
          [exact Or.inl rfl; exact Or.inl rfl; exact Or.inr hx]
    · simp only [setType, if_neg h, List.map_cons, List.mem_cons, ih]
      tauto

theorem mem_keys_removeType (m : List (String × String)) (k x : String) :
    x ∈ (removeType m k).map Prod.fst ↔ x ∈ m.map Prod.fst ∧ x ≠ k := by
  unfold removeType
  constructor
  · intro hx
    rcases List.mem_map.mp hx with ⟨p, hp, rfl⟩
    rcases List.mem_filter.mp hp with ⟨hpm, hpk⟩
    exact ⟨List.mem_map.mpr ⟨p, hpm, rfl⟩, by simpa using hpk⟩
  · rintro ⟨hx, hk⟩
    rcases List.mem_map.mp hx with ⟨p, hp, rfl⟩
    exact List.mem_map.mpr ⟨p, List.mem_filter.mpr ⟨hp, by simpa using hk⟩, rfl⟩

-- ── Claim C9: edge-key canonicalization is symmetric ──

/-- C9: for every pair of node identifiers `a` and `b`,
`edgeKey a b = edgeKey b a` — the canonical edge key is symmetric. -/
theorem edgeKey_symm (a b : String) : edgeKey a b = edgeKey b a := by
  unfold edgeKey
  rcases le_total a b with h | h
  · by_cases h' : b ≤ a
    · have hab : a = b := le_antisymm h h'
      subst hab; rfl
    · rw [if_pos h, if_neg h']
  · by_cases h' : a ≤ b
    · have hab : a = b := le_antisymm h' h
      subst hab; rfl
    · rw [if_neg h', if_pos h]

-- ── Claim C5: a blocked start yields NotFound ──

/-- C5: whenever the start node is in `blockedNodes`, `bfsEvacuate` returns
`none` (NotFound) — for any graph, exit set and blocked edges, in particular
even when the start is itself an exit. -/
theorem bfsEvacuate_blocked_start (adjacency : List (String × List String))
    (exits : List String) (start : String) (bn be : List String)
    (h : bn.contains start = true) :
    bfsEvacuate adjacency exits start bn be = none := by
  have h' : start ∈ bn := (contains_iff_mem bn start).mp h
  simp [bfsEvacuate, h']

/-- Witness for C5 at a concrete input where the start is also an exit. -/
theorem bfsEvacuate_blocked_start_witness :
    (["S"] : List String).contains "S" = true ∧
      bfsEvacuate [("S", ["E"])] ["S", "E"] "S" ["S"] [] = none :=
  ⟨by decide, bfsEvacuate_blocked_start [("S", ["E"])] ["S", "E"] "S" ["S"] [] (by decide)⟩

-- ── Claim C10: an unblocked start that is an exit gives the trivial route ──

/-- C10: if the start node is in the exit set and not blocked, `bfsEvacuate`
returns the single-node route `[start]`, for every graph and blocked-edge
set. -/
theorem bfsEvacuate_start_exit (adjacency : List (String × List String))
    (exits : List String) (start : String) (bn be : List String)
    (h1 : exits.contains start = true) (h2 : bn.contains start = false) :
    bfsEvacuate adjacency exits start bn be = some [start] := by
  have h2' : start ∉ bn := (contains_false_iff bn start).mp h2
  have h1' : start ∈ exits := (contains_iff_mem exits start).mp h1
  rw [bfsEvacuate, if_neg (by simp [h2'])]
  rw [show bfsFuel adjacency = (totalAdjSize adjacency + 1) + 1 from rfl]
  rw [bfsAux]
  simp [lastD_singleton, h1']

/-- Witness for C10 at a concrete input. -/
theorem bfsEvacuate_start_exit_witness :
    (["S"] : List String).contains "S" = true ∧
      (["X"] : List String).contains "S" = false ∧
      bfsEvacuate [("S", ["E"])] ["S"] "S" ["X"] ["S::E"] = some ["S"] :=
  ⟨by decide, by decide,
    bfsEvacuate_start_exit [("S", ["E"])] ["S"] "S" ["X"] ["S::E"] (by decide) (by decide)⟩

-- ── Claim C3: where the start-node guard actually lives ──

/-- C3 counterexample: `applyHazard` applied to the start node is *not* a
no-op — it changes the Hazard State, adding the start to `blockedNodes`. -/
theorem applyHazard_start_changes_state :
    applyHazard START_NODE "fire" initialState ≠ initialState ∧
      (applyHazard START_NODE "fire" initialState).hazardNodes.contains START_NODE
        = true := by
  constructor
  · decide
  · decide

/-- C3 amended: `applyHazard` performs no start check — it unconditionally
adds the node to `blockedNodes` (and records its kind); the start-node
rejection is enforced by `toggleHazard`, which leaves the state unchanged. -/
theorem start_guard_in_toggleHazard :
    (∀ (s : HazardState) (k : String),
      (applyHazard START_NODE k s).hazardNodes.contains START_NODE = true) ∧
      ∀ s : HazardState, toggleHazard START_NODE s = s := by
  constructor
  · intro s k
    exact contains_insertStr_self s.hazardNodes START_NODE
  · intro s
    simp [toggleHazard]

-- ── Claim C6: toggling the start is a frame-preserving no-op ──

/-- C6: `toggleHazard` on the start node leaves the entire hazard state
unchanged, and under the toggle interface the start never enters
`blockedNodes`: every `toggleHazard` call preserves its absence. -/
theorem toggleHazard_start_frame :
    (∀ s : HazardState, toggleHazard START_NODE s = s) ∧
      ∀ (n : String) (s : HazardState),
        s.hazardNodes.contains START_NODE = false →
          (toggleHazard n s).hazardNodes.contains START_NODE = false := by
  constructor
  · intro s; simp [toggleHazard]
  · intro n s hs
    by_cases hn : n = START_NODE
    · simp only [toggleHazard, if_pos hn]
      exact hs
    · rw [toggleHazard, if_neg hn]
      by_cases hmem : s.hazardNodes.contains n = true
      · rw [if_pos hmem]
        show (s.hazardNodes.filter (· ≠ n)).contains START_NODE = false
        rw [contains_filter_ne _ _ _ (fun h => hn h.symm)]
        exact hs
      · rw [if_neg hmem]
        show (insertStr s.hazardNodes n).contains START_NODE = false
        rw [contains_insertStr_ne _ _ _ (fun h => hn h.symm)]
        exact hs

/-- Witness for C6 at concrete inputs. -/
theorem toggleHazard_start_frame_witness :
    toggleHazard START_NODE initialState = initialState ∧
      (toggleHazard "Hall" initialState).hazardNodes.contains START_NODE = false :=
  ⟨toggleHazard_start_frame.1 initialState,
    toggleHazard_start_frame.2 "Hall" initialState (by decide)⟩

-- ── Claim C7: domain of hazardTypes = hazardNodes, preserved by all ops ──

/-- The Hazard State invariant: the keys of `hazardTypes` are exactly the
members of `hazardNodes`. -/
def hazInv (s : HazardState) : Prop :=
  ∀ x, x ∈ s.hazardTypes.map Prod.fst ↔ x ∈ s.hazardNodes

theorem hazInv_applyHazard (n t : String) (s : HazardState) (h : hazInv s) :
    hazInv (applyHazard n t s) := by
  intro x
  show x ∈ (setType s.hazardTypes n t).map Prod.fst ↔ x ∈ insertStr s.hazardNodes n
  rw [mem_keys_setType, mem_insertStr, h x]

theorem hazInv_removeHazard (n : String) (s : HazardState) (h : hazInv s) :
    hazInv (removeHazard n s) := by
  intro x
  show x ∈ (removeType s.hazardTypes n).map Prod.fst ↔
    x ∈ s.hazardNodes.filter (· ≠ n)
  rw [mem_keys_removeType, mem_filter_ne, h x]

theorem hazInv_resetAll (s : HazardState) : hazInv (resetAll s) := by
  intro x; simp [resetAll]

theorem hazInv_presetNodes (ns : List String) (s : HazardState) (h : hazInv s) :
    hazInv (ns.foldl
      (fun st n =>
        { st with hazardNodes := insertStr st.hazardNodes n,
                  hazardTypes := setType st.hazardTypes n "fire" }) s) := by
  induction ns generalizing s with
  | nil => exact h
  | cons n rest ih =>
    refine ih _ (fun x => ?_)
    show x ∈ (setType s.hazardTypes n "fire").map Prod.fst ↔
      x ∈ insertStr s.hazardNodes n
    rw [mem_keys_setType, mem_insertStr, h x]

theorem hazInv_presetEdges (es : List (String × String)) (s : HazardState)
    (h : hazInv s) :
    hazInv (es.foldl
      (fun st e =>
        { st with hazardEdges := insertStr st.hazardEdges (edgeKey e.1 e.2) }) s) := by
  induction es generalizing s with
  | nil => exact h
  | cons e rest ih => exact ih _ h

/-- C7: the invariant `dom hazardTypes = hazardNodes` holds initially and is
preserved by `applyHazard`, `removeHazard`, `toggleHazard`, `resetAll` and
`applyPreset`. -/
theorem hazardTypes_domain_invariant :
    hazInv initialState ∧
      (∀ (s : HazardState) (n t : String), hazInv s → hazInv (applyHazard n t s)) ∧
      (∀ (s : HazardState) (n : String), hazInv s → hazInv (removeHazard n s)) ∧
      (∀ (s : HazardState) (n : String), hazInv s → hazInv (toggleHazard n s)) ∧
      (∀ s : HazardState, hazInv (resetAll s)) ∧
      ∀ (s : HazardState) (name : String), hazInv s → hazInv (applyPreset name s) := by
  refine ⟨fun x => by simp [initialState], fun s n t h => hazInv_applyHazard n t s h,
    fun s n h => hazInv_removeHazard n s h, fun s n h => ?_,
    hazInv_resetAll, fun s name h => ?_⟩
  · unfold toggleHazard
    by_cases h1 : n = START_NODE
    · rwa [if_pos h1]
    · rw [if_neg h1]
      by_cases h2 : s.hazardNodes.contains n = true
      · rw [if_pos h2]; exact hazInv_removeHazard n s h
      · rw [if_neg h2]; exact hazInv_applyHazard n s.selectedHazard s h
  · unfold applyPreset
    cases HAZARD_PRESETS.lookup name with
    | none => exact h
    | some p =>
      exact hazInv_presetEdges p.edges _ (hazInv_presetNodes p.nodes _ (hazInv_resetAll s))

/-- Witness for C7: the invariant propagated through a concrete operation. -/
theorem hazardTypes_domain_invariant_witness :
    hazInv (applyHazard "Hall" "smoke" initialState) :=
  hazardTypes_domain_invariant.2.1 initialState "Hall" "smoke"
    (fun x => by simp [initialState])

-- ── Claim C8: node ids absent from the Graph Store have no effect ──

theorem allNeighbors_cons (p : String × List String)
    (rest : List (String × List String)) :
    allNeighbors (p :: rest) = p.2 ++ allNeighbors rest := by
  simp [allNeighbors]

theorem lookupAdj_subset_allNeighbors (adjacency : List (String × List String))
    (n : String) : ∀ x ∈ lookupAdj adjacency n, x ∈ allNeighbors adjacency := by
  induction adjacency with
  | nil => intro x hx; simp [lookupAdj, List.lookup] at hx
  | cons p rest ih =>
    intro x hx
    rw [allNeighbors_cons]
    obtain ⟨k, l⟩ := p
    unfold lookupAdj at hx
    cases h : (n == k) with
    | true =>
      simp only [List.lookup, h] at hx
      exact List.mem_append_left _ hx
    | false =>
      simp only [List.lookup, h] at hx
      exact List.mem_append_right _ (ih x hx)

theorem enqueueNeighbors_congr (bn bn' be : List String) (path : List String)
    (cur : String) :
    ∀ (ns : List String) (acc : List (List String) × List String),
      (∀ n ∈ ns, bn.contains n = bn'.contains n) →
      enqueueNeighbors bn be path cur ns acc = enqueueNeighbors bn' be path cur ns acc := by
  intro ns
  induction ns with
  | nil => intro acc _; rfl
  | cons n rest ih =>
    intro acc hrel
    obtain ⟨queue, visited⟩ := acc
    have hn : bn.contains n = bn'.contains n := hrel n (List.mem_cons_self n rest)
    have hrest : ∀ m ∈ rest, bn.contains m = bn'.contains m :=
      fun m hm => hrel m (List.mem_cons_of_mem n hm)
    show (if visited.contains n then _ else if bn.contains n then _
        else if be.contains (edgeKey cur n) then _ else _) = _
    rw [show enqueueNeighbors bn' be path cur (n :: rest) (queue, visited)
        = (if visited.contains n then enqueueNeighbors bn' be path cur rest (queue, visited)
          else if bn'.contains n then enqueueNeighbors bn' be path cur rest (queue, visited)
          else if be.contains (edgeKey cur n) then
            enqueueNeighbors bn' be path cur rest (queue, visited)
          else enqueueNeighbors bn' be path cur rest
            (queue ++ [path ++ [n]], n :: visited)) from rfl]
    rw [hn]
    by_cases h1 : visited.contains n
    · rw [if_pos h1, if_pos h1]; exact ih _ hrest
    · rw [if_neg h1, if_neg h1]
      by_cases h2 : bn'.contains n
      · rw [if_pos h2, if_pos h2]; exact ih _ hrest
      · rw [if_neg h2, if_neg h2]
        by_cases h3 : be.contains (edgeKey cur n)
        · rw [if_pos h3, if_pos h3]; exact ih _ hrest
        · rw [if_neg h3, if_neg h3]; exact ih _ hrest

theorem bfsAux_congr (adjacency : List (String × List String))
    (exits bn bn' be : List String)
    (hrel : ∀ v ∈ allNeighbors adjacency, bn.contains v = bn'.contains v) :
    ∀ (fuel : Nat) (Q : List (List String)) (V : List String),
      bfsAux adjacency exits bn be fuel Q V = bfsAux adjacency exits bn' be fuel Q V := by
  intro fuel
  induction fuel with
  | zero => intro Q V; rfl
  | succ f ih =>
    intro Q V
    cases Q with
    | nil => rfl
    | cons path rest =>
      rw [bfsAux, bfsAux]
      by_cases h : exits.contains (lastD path)
      · simp only [if_pos h]
      · simp only [if_neg h]
        rw [enqueueNeighbors_congr bn bn' be path (lastD path)
          (lookupAdj adjacency (lastD path)) (rest, V)
          (fun n hn => hrel n (lookupAdj_subset_allNeighbors adjacency (lastD path) n hn))]
        exact ih _ _

theorem bfsEvacuate_congr_blocked (adjacency : List (String × List String))
    (exits : List String) (start : String) (bn bn' be : List String)
    (hstart : bn.contains start = bn'.contains start)
    (hrel : ∀ v ∈ allNeighbors adjacency, bn.contains v = bn'.contains v) :
    bfsEvacuate adjacency exits start bn be = bfsEvacuate adjacency exits start bn' be := by
  unfold bfsEvacuate
  rw [hstart]
  by_cases h : bn'.contains start
  · rw [if_pos h, if_pos h]
  · rw [if_neg h, if_neg h]
    exact bfsAux_congr adjacency exits bn bn' be hrel _ _ _

theorem allNeighbors_ADJACENCY_in_nodeKeys :
    ∀ v ∈ allNeighbors ADJACENCY, v ∈ nodeKeys := by
  decide

theorem start_in_nodeKeys : START_NODE ∈ nodeKeys := by decide

/-- C8: hazard operations on a node id absent from the Graph Store are total
(no exception is modelled or needed) and do not change the route that
`bfsEvacuate` subsequently returns: the unknown id never matches the start
node or any adjacency-list entry the search consults. -/
theorem unknown_id_preserves_route (X t : String) (s : HazardState)
    (hX : nodeKeys.contains X = false) :
    currentRoute (applyHazard X t s) = currentRoute s ∧
      currentRoute (removeHazard X s) = currentRoute s ∧
      currentRoute (toggleHazard X s) = currentRoute s := by
  have hXmem : X ∉ nodeKeys := (contains_false_iff _ _).mp hX
  have hne : ∀ v ∈ allNeighbors ADJACENCY, v ≠ X :=
    fun v hv hvX => hXmem (hvX ▸ allNeighbors_ADJACENCY_in_nodeKeys v hv)
  have hstart_ne : START_NODE ≠ X := fun h => hXmem (h ▸ start_in_nodeKeys)
  have happly : currentRoute (applyHazard X t s) = currentRoute s := by
    unfold currentRoute
    show bfsEvacuate ADJACENCY EXITS START_NODE (insertStr s.hazardNodes X)
      s.hazardEdges = _
    exact bfsEvacuate_congr_blocked _ _ _ _ _ _
      (contains_insertStr_ne _ _ _ hstart_ne)
      (fun v hv => contains_insertStr_ne _ _ _ (hne v hv))
  have hremove : currentRoute (removeHazard X s) = currentRoute s := by
    unfold currentRoute
    show bfsEvacuate ADJACENCY EXITS START_NODE (s.hazardNodes.filter (· ≠ X))
      s.hazardEdges = _
    exact bfsEvacuate_congr_blocked _ _ _ _ _ _
      (contains_filter_ne _ _ _ hstart_ne)
      (fun v hv => contains_filter_ne _ _ _ (hne v hv))
  refine ⟨happly, hremove, ?_⟩
  unfold toggleHazard
  rw [if_neg (fun h => hstart_ne h.symm)]
  by_cases hmem : s.hazardNodes.contains X
  · rw [if_pos hmem]; exact hremove
  · rw [if_neg hmem]; exact happly

/-- Witness for C8 at a concrete unknown id. -/
theorem unknown_id_preserves_route_witness :
    nodeKeys.contains "Ghost" = false ∧
      (currentRoute (applyHazard "Ghost" "fire" initialState) = currentRoute initialState ∧
        currentRoute (removeHazard "Ghost" initialState) = currentRoute initialState ∧
        currentRoute (toggleHazard "Ghost" initialState) = currentRoute initialState) :=
  ⟨by decide, unknown_id_preserves_route "Ghost" "fire" initialState (by decide)⟩

-- ── BFS loop invariant (for claims C1 and C2) ──

theorem head?_ne_nil {l : List String} {a : String} (h : l.head? = some a) :
    l ≠ [] := by
  intro hnil; subst hnil; simp at h

theorem getLast?_eq_lastD (l : List String) (h : l ≠ []) :
    l.getLast? = some (lastD l) := by
  rw [lastD, List.getLastD_eq_getLast?, List.getLast?_eq_getLast l h]
  rfl

theorem lastD_mem (l : List String) (h : l ≠ []) : lastD l ∈ l := by
  rw [lastD, List.getLastD_eq_getLast?, List.getLast?_eq_getLast l h]
  exact List.getLast_mem h

theorem lastD_eq_get (w : List String) (h : w ≠ []) :
    lastD w = w.get ⟨w.length - 1, by
      have := List.length_pos.mpr h; omega⟩ := by
  rw [lastD, List.getLastD_eq_getLast?, List.getLast?_eq_getLast w h]
  simp [List.getLast_eq_getElem]

theorem pairwise_le_const (l : List Nat) (c : Nat) (h : ∀ x ∈ l, x = c) :
    List.Pairwise (· ≤ ·) l := by
  induction l with
  | nil => exact List.Pairwise.nil
  | cons a t ih =>
    refine List.Pairwise.cons (fun b hb => ?_) (ih (fun x hx => h x (List.mem_cons_of_mem a hx)))
    rw [h a (List.mem_cons_self a t), h b (List.mem_cons_of_mem a hb)]

/-- Length of the path at the front of the queue (`0` for an empty queue). -/
def headLen (Q : List (List String)) : Nat := (Q.headD []).length

theorem headLen_cons (p : List String) (rest : List (List String)) :
    headLen (p :: rest) = p.length := rfl

/-- The invariant of the `bfsEvacuate` loop state: `Q` is the queue of paths,
`V` the visited set, and `D` a ghost record of the length of the path with
which each visited node was enqueued.

* `sorted`/`span`: queue path lengths are nondecreasing and span at most two
  consecutive values;
* `pathsValid`: every queued path is a hazard-avoiding walk from `start`,
  simple, inside `V`, whose recorded end-node length is its own length;
* `bound`: every visited node was discovered no later than one level past the
  current front;
* `closure`: a visited node either still ends a queued path or is a fully
  expanded non-exit: all its traversable successors are visited, one level
  deeper at most. -/
structure BfsInv (adjacency : List (String × List String)) (exits bn be : List String)
    (start : String) (Q : List (List String)) (V : List String)
    (D : String → Nat) : Prop where
  sorted : List.Pairwise (· ≤ ·) (Q.map List.length)
  span : ∀ q ∈ Q, q.length ≤ headLen Q + 1
  pathsValid : ∀ q ∈ Q, q.head? = some start ∧
    List.Chain' (validStep adjacency bn be) q ∧ q.Nodup ∧
    (∀ x ∈ q, x ∈ V) ∧ D (lastD q) = q.length
  startMem : start ∈ V
  startD : D start = 1
  startUnblocked : bn.contains start = false
  bound : Q ≠ [] → ∀ v ∈ V, D v ≤ headLen Q + 1
  closure : ∀ v ∈ V, (∃ q ∈ Q, lastD q = v) ∨
    (exits.contains v = false ∧
      ∀ u, validStep adjacency bn be v u → u ∈ V ∧ D u ≤ D v + 1)

/-- Everything the step lemma needs to know about one run of the neighbor
loop, proved by induction along the neighbor list. -/
theorem enqueue_spec (bn be : List String) (path : List String) (cur : String) :
    ∀ (ns : List String) (Q : List (List String)) (V : List String)
      (Q' : List (List String)) (V' : List String),
      enqueueNeighbors bn be path cur ns (Q, V) = (Q', V') →
      V ⊆ V' ∧
      (∀ n ∈ ns, bn.contains n = false → be.contains (edgeKey cur n) = false →
        n ∈ V') ∧
      ∃ extra,
        Q' = Q ++ extra ∧
        (∀ q ∈ extra, ∃ n, q = path ++ [n] ∧ n ∈ ns ∧ n ∉ V ∧
          bn.contains n = false ∧ be.contains (edgeKey cur n) = false ∧ n ∈ V') ∧
        ∀ v ∈ V', v ∈ V ∨ ∃ q ∈ extra, lastD q = v := by
  intro ns
  induction ns with
  | nil =>
    intro Q V Q' V' h
    obtain ⟨rfl, rfl⟩ : Q = Q' ∧ V = V' := by
      constructor <;> [exact congrArg Prod.fst h; exact congrArg Prod.snd h]
    refine ⟨fun v hv => hv, by simp, [], by simp, by simp, fun v hv => Or.inl hv⟩
  | cons n rest ih =>
    intro Q V Q' V' h
    rw [show enqueueNeighbors bn be path cur (n :: rest) (Q, V)
        = (if V.contains n then enqueueNeighbors bn be path cur rest (Q, V)
          else if bn.contains n then enqueueNeighbors bn be path cur rest (Q, V)
          else if be.contains (edgeKey cur n) then
            enqueueNeighbors bn be path cur rest (Q, V)
          else enqueueNeighbors bn be path cur rest
            (Q ++ [path ++ [n]], n :: V)) from rfl] at h
    by_cases hv : V.contains n
    · rw [if_pos hv] at h
      obtain ⟨hsub, hcov, extra, hq, hextra, hnew⟩ := ih Q V Q' V' h
      refine ⟨hsub, ?_, extra, hq, ?_, hnew⟩
      · intro m hm hb hbe
        rcases List.mem_cons.mp hm with rfl | hm'
        · exact hsub ((contains_iff_mem V m).mp hv)
        · exact hcov m hm' hb hbe
      · intro q hqe
        obtain ⟨n', h1, h2, h3, h4, h5, h6⟩ := hextra q hqe
        exact ⟨n', h1, List.mem_cons_of_mem n h2, h3, h4, h5, h6⟩
    · rw [if_neg hv] at h
      by_cases hb : bn.contains n
      · rw [if_pos hb] at h
        obtain ⟨hsub, hcov, extra, hq, hextra, hnew⟩ := ih Q V Q' V' h
        refine ⟨hsub, ?_, extra, hq, ?_, hnew⟩
        · intro m hm hbm hbem
          rcases List.mem_cons.mp hm with rfl | hm'
          · rw [hbm] at hb; exact absurd hb Bool.false_ne_true
          · exact hcov m hm' hbm hbem
        · intro q hqe
          obtain ⟨n', h1, h2, h3, h4, h5, h6⟩ := hextra q hqe
          exact ⟨n', h1, List.mem_cons_of_mem n h2, h3, h4, h5, h6⟩
      · rw [if_neg hb] at h
        by_cases hbe : be.contains (edgeKey cur n)
        · rw [if_pos hbe] at h
          obtain ⟨hsub, hcov, extra, hq, hextra, hnew⟩ := ih Q V Q' V' h
          refine ⟨hsub, ?_, extra, hq, ?_, hnew⟩
          · intro m hm hbm hbem
            rcases List.mem_cons.mp hm with rfl | hm'
            · rw [hbem] at hbe; exact absurd hbe Bool.false_ne_true
            · exact hcov m hm' hbm hbem
          · intro q hqe
            obtain ⟨n', h1, h2, h3, h4, h5, h6⟩ := hextra q hqe
            exact ⟨n', h1, List.mem_cons_of_mem n h2, h3, h4, h5, h6⟩
        · rw [if_neg hbe] at h
          obtain ⟨hsub, hcov, extra', hq, hextra, hnew⟩ :=
            ih (Q ++ [path ++ [n]]) (n :: V) Q' V' h
          have hnV : n ∈ V' := hsub (List.mem_cons_self n V)
          have hVsub : V ⊆ V' := fun v hvm => hsub (List.mem_cons_of_mem n hvm)
          have hbF : bn.contains n = false := by
            rw [← Bool.not_eq_true]; exact hb
          have hbeF : be.contains (edgeKey cur n) = false := by
            rw [← Bool.not_eq_true]; exact hbe
          refine ⟨hVsub, ?_, (path ++ [n]) :: extra', ?_, ?_, ?_⟩
          · intro m hm hbm hbem
            rcases List.mem_cons.mp hm with rfl | hm'
            · exact hnV
            · exact hcov m hm' hbm hbem
          · rw [hq, List.append_assoc]; rfl
          · intro q hqe
            rcases List.mem_cons.mp hqe with rfl | hqe'
            · exact ⟨n, rfl, List.mem_cons_self n rest,
                fun hmem => hv ((contains_iff_mem V n).mpr hmem), hbF, hbeF, hnV⟩
            · obtain ⟨n', h1, h2, h3, h4, h5, h6⟩ := hextra q hqe'
              exact ⟨n', h1, List.mem_cons_of_mem n h2,
                fun hmem => h3 (List.mem_cons_of_mem n hmem), h4, h5, h6⟩
          · intro v hvm
            rcases hnew v hvm with hold | ⟨q, hqm, hlq⟩
            · rcases List.mem_cons.mp hold with rfl | hvV
              · exact Or.inr ⟨path ++ [v], List.mem_cons_self _ _, lastD_concat path v⟩
              · exact Or.inl hvV
            · exact Or.inr ⟨q, List.mem_cons_of_mem _ hqm, hlq⟩

theorem head?_append_of_ne_nil (l l' : List String) (h : l ≠ []) :
    (l ++ l').head? = l.head? := by
  cases l with
  | nil => exact absurd rfl h
  | cons a t => rfl

/-- One non-exit pop preserves the invariant, with the ghost discovery record
extended by `p.length + 1` on the newly visited nodes. -/
theorem bfs_step_inv (adjacency : List (String × List String))
    (exits bn be : List String) (start : String) (p : List String)
    (rest Q' : List (List String)) (V V' : List String) (D : String → Nat)
    (hinv : BfsInv adjacency exits bn be start (p :: rest) V D)
    (hnotexit : exits.contains (lastD p) = false)
    (henq : enqueueNeighbors bn be p (lastD p) (lookupAdj adjacency (lastD p))
      (rest, V) = (Q', V')) :
    BfsInv adjacency exits bn be start Q' V'
      (fun v => if v ∈ V then D v else p.length + 1) := by
  obtain ⟨hsub, hcov, extra, hQ', hextra, hnew⟩ :=
    enqueue_spec bn be p (lastD p) (lookupAdj adjacency (lastD p)) rest V Q' V' henq
  obtain ⟨hphead, hpchain, hpnodup, hpnodes, hpD⟩ :=
    hinv.pathsValid p (List.mem_cons_self p rest)
  have hpne : p ≠ [] := head?_ne_nil hphead
  have hcur_mem : lastD p ∈ V := hpnodes _ (lastD_mem p hpne)
  have hsorted_cons : List.Pairwise (· ≤ ·) (p.length :: rest.map List.length) := by
    have := hinv.sorted; rwa [List.map_cons] at this
  have hextra_len : ∀ q ∈ extra, q.length = p.length + 1 := by
    intro q hq
    obtain ⟨n, rfl, -⟩ := hextra q hq
    simp
  have hrest_ge : ∀ q ∈ rest, p.length ≤ q.length := by
    intro q hq
    exact (List.pairwise_cons.mp hsorted_cons).1 _ (List.mem_map_of_mem _ hq)
  have hrest_le : ∀ q ∈ rest, q.length ≤ p.length + 1 := by
    intro q hq
    have := hinv.span q (List.mem_cons_of_mem p hq)
    rwa [headLen_cons] at this
  have hQlen : ∀ q ∈ Q', q.length ≤ p.length + 1 := by
    intro q hq
    rw [hQ'] at hq
    rcases List.mem_append.mp hq with hq | hq
    exacts [hrest_le q hq, le_of_eq (hextra_len q hq)]
  have hHL : Q' ≠ [] → p.length ≤ headLen Q' := by
    intro hne
    cases hrest : rest with
    | nil =>
      rw [hrest] at hQ'
      rw [hQ', List.nil_append] at hne ⊢
      cases hext : extra with
      | nil => rw [hext] at hne; exact absurd rfl hne
      | cons e t =>
        rw [headLen_cons]
        rw [hextra_len e (by rw [hext]; exact List.mem_cons_self e t)]
        omega
    | cons r0 rs =>
      rw [hrest] at hQ'
      rw [hQ', List.cons_append, headLen_cons]
      exact hrest_ge r0 (by rw [hrest]; exact List.mem_cons_self r0 rs)
  have hboundV : ∀ v ∈ V, D v ≤ p.length + 1 := by
    intro v hv
    have := hinv.bound (by simp) v hv
    rwa [headLen_cons] at this
  refine ⟨?_, ?_, ?_, hsub hinv.startMem, ?_, hinv.startUnblocked, ?_, ?_⟩
  · -- sorted
    rw [hQ', List.map_append, List.pairwise_append]
    refine ⟨(List.pairwise_cons.mp hsorted_cons).2, ?_, ?_⟩
    · refine pairwise_le_const _ (p.length + 1) ?_
      intro x hx
      rcases List.mem_map.mp hx with ⟨q, hq, rfl⟩
      exact hextra_len q hq
    · intro a ha b hb
      rcases List.mem_map.mp ha with ⟨qa, hqa, rfl⟩
      rcases List.mem_map.mp hb with ⟨qb, hqb, rfl⟩
      rw [hextra_len qb hqb]
      exact hrest_le qa hqa
  · -- span
    intro q hq
    have hne : Q' ≠ [] := by
      intro hcon; rw [hcon] at hq; simp at hq
    have := hHL hne
    have := hQlen q hq
    omega
  · -- pathsValid
    intro q hq
    rw [hQ'] at hq
    rcases List.mem_append.mp hq with hq | hq
    · obtain ⟨h1, h2, h3, h4, h5⟩ := hinv.pathsValid q (List.mem_cons_of_mem p hq)
      refine ⟨h1, h2, h3, fun x hx => hsub (h4 x hx), ?_⟩
      have hlq : lastD q ∈ V := h4 _ (lastD_mem q (head?_ne_nil h1))
      simp only [if_pos hlq]
      exact h5
    · obtain ⟨n, rfl, hns, hnV, hbF, hbeF, hnV'⟩ := hextra q hq
      refine ⟨?_, ?_, ?_, ?_, ?_⟩
      · rw [head?_append_of_ne_nil p [n] hpne]
        exact hphead
      · rw [List.chain'_append]
        refine ⟨hpchain, List.chain'_singleton n, ?_⟩
        intro x hx y hy
        rw [getLast?_eq_lastD p hpne] at hx
        simp only [Option.mem_def, Option.some_inj] at hx
        simp only [List.head?_cons, Option.mem_def, Option.some_inj] at hy
        subst hx; subst hy
        exact ⟨hns, hbF, hbeF⟩
      · rw [List.nodup_append]
        refine ⟨hpnodup, List.nodup_singleton n, ?_⟩
        intro a ha ha'
        simp only [List.mem_singleton] at ha'
        subst ha'
        exact hnV (hpnodes a ha)
      · intro x hx
        rcases List.mem_append.mp hx with hx | hx
        · exact hsub (hpnodes x hx)
        · simp only [List.mem_singleton] at hx
          subst hx
          exact hnV'
      · rw [lastD_concat]
        simp only [if_neg hnV, List.length_append, List.length_singleton]
  · -- startD
    simp only [if_pos hinv.startMem]
    exact hinv.startD
  · -- bound
    intro hne v hv
    have hh := hHL hne
    by_cases hvV : v ∈ V
    · simp only [if_pos hvV]
      have := hboundV v hvV
      omega
    · simp only [if_neg hvV]
      omega
  · -- closure
    intro v hv
    rcases hnew v hv with hvV | ⟨q, hq, hlq⟩
    · rcases hinv.closure v hvV with ⟨q, hqm, hlq⟩ | ⟨hex, hstep⟩
      · rcases List.mem_cons.mp hqm with hqp | hqrest
        · -- the popped head: v = lastD p
          have hlp : lastD p = v := by rw [← hqp]; exact hlq
          refine Or.inr ⟨hlp ▸ hnotexit, ?_⟩
          intro u hu
          have huV' : u ∈ V' := by
            refine hcov u ?_ hu.2.1 ?_
            · rw [hlp]; exact hu.1
            · rw [hlp]; exact hu.2.2
          refine ⟨huV', ?_⟩
          have hDv : D v = p.length := by rw [← hlp]; exact hpD
          simp only [if_pos hvV]
          by_cases huV : u ∈ V
          · simp only [if_pos huV]
            have := hboundV u huV
            omega
          · simp only [if_neg huV]
            omega
        · exact Or.inl ⟨q, by rw [hQ']; exact List.mem_append_left _ hqrest, hlq⟩
      · refine Or.inr ⟨hex, ?_⟩
        intro u hu
        obtain ⟨huV, hDu⟩ := hstep u hu
        refine ⟨hsub huV, ?_⟩
        simp only [if_pos huV, if_pos hvV]
        exact hDu
    · exact Or.inl ⟨q, by rw [hQ']; exact List.mem_append_right _ hq, hlq⟩

/-- The invariant holds at the initial state `queue = [[start]]`,
`visited = {start}`. -/
theorem bfs_init_inv (adjacency : List (String × List String))
    (exits bn be : List String) (start : String)
    (hstart : bn.contains start = false) :
    BfsInv adjacency exits bn be start [[start]] [start] (fun _ => 1) := by
  refine ⟨?_, ?_, ?_, List.mem_singleton_self start, rfl, hstart, ?_, ?_⟩
  · simp
  · intro q hq
    simp only [List.mem_singleton] at hq
    subst hq
    simp [headLen]
  · intro q hq
    simp only [List.mem_singleton] at hq
    subst hq
    exact ⟨rfl, List.chain'_singleton start, List.nodup_singleton start,
      by simp, rfl⟩
  · intro _ v hv
    simp only [List.mem_singleton] at hv
    subst hv
    simp [headLen]
  · intro v hv
    simp only [List.mem_singleton] at hv
    subst hv
    exact Or.inl ⟨[v], List.mem_singleton_self [v], rfl⟩

/-- A visited node discovered strictly earlier than the current front cannot
still end a queued path: queue path lengths are at least the front's. -/
theorem no_short_queue_path (adjacency : List (String × List String))
    (exits bn be : List String) (start : String) (p : List String)
    (rest : List (List String)) (V : List String) (D : String → Nat)
    (hinv : BfsInv adjacency exits bn be start (p :: rest) V D)
    (v : String) (hD : D v < p.length) :
    ¬ ∃ q ∈ p :: rest, lastD q = v := by
  rintro ⟨q, hq, rfl⟩
  have hDq : D (lastD q) = q.length := (hinv.pathsValid q hq).2.2.2.2
  have hsorted_cons : List.Pairwise (· ≤ ·) (p.length :: rest.map List.length) := by
    have := hinv.sorted; rwa [List.map_cons] at this
  rcases List.mem_cons.mp hq with rfl | hqrest
  · omega
  · have : p.length ≤ q.length :=
      (List.pairwise_cons.mp hsorted_cons).1 _ (List.mem_map_of_mem _ hqrest)
    omega

/-- Along any valid walk shorter than the queue front, every node has been
visited, discovered at most one past its position. -/
theorem inv_walk_visited (adjacency : List (String × List String))
    (exits bn be : List String) (start : String) (p : List String)
    (rest : List (List String)) (V : List String) (D : String → Nat)
    (hinv : BfsInv adjacency exits bn be start (p :: rest) V D)
    (w : List String) (hwhead : w.head? = some start)
    (hwchain : List.Chain' (validStep adjacency bn be) w)
    (hwlen : w.length < p.length) :
    ∀ i (hi : i < w.length), w.get ⟨i, hi⟩ ∈ V ∧ D (w.get ⟨i, hi⟩) ≤ i + 1 := by
  intro i
  induction i with
  | zero =>
    intro hi
    cases w with
    | nil => simp at hi
    | cons a t =>
      have ha : a = start := by simpa using hwhead
      show a ∈ V ∧ D a ≤ 1
      rw [ha, hinv.startD]
      exact ⟨hinv.startMem, le_refl 1⟩
  | succ j ihj =>
    intro hi
    have hj : j < w.length := Nat.lt_of_succ_lt hi
    obtain ⟨hmem, hD⟩ := ihj hj
    have hDlt : D (w.get ⟨j, hj⟩) < p.length := by omega
    rcases hinv.closure _ hmem with hq | ⟨-, hstep⟩
    · exact absurd hq (no_short_queue_path adjacency exits bn be start p rest V D
        hinv _ hDlt)
    · have hstepji : validStep adjacency bn be (w.get ⟨j, hj⟩) (w.get ⟨j + 1, hi⟩) := by
        have := List.chain'_iff_get.mp hwchain j (by omega)
        exact this
      obtain ⟨hu, hDu⟩ := hstep _ hstepji
      exact ⟨hu, by omega⟩

/-- When the queue front is popped at an exit, it is at least as short as
every valid hazard-avoiding walk to an exit. -/
theorem inv_min (adjacency : List (String × List String))
    (exits bn be : List String) (start : String) (p : List String)
    (rest : List (List String)) (V : List String) (D : String → Nat)
    (hinv : BfsInv adjacency exits bn be start (p :: rest) V D)
    (w : List String) (hw : validWalk adjacency exits start bn be w) :
    p.length ≤ w.length := by
  by_contra hlt
  push_neg at hlt
  obtain ⟨hwhead, -, hwchain, hwexit⟩ := hw
  have hne : w ≠ [] := head?_ne_nil hwhead
  have hpos : 0 < w.length := List.length_pos.mpr hne
  have hi : w.length - 1 < w.length := by omega
  obtain ⟨hmem, hD⟩ := inv_walk_visited adjacency exits bn be start p rest V D
    hinv w hwhead hwchain hlt (w.length - 1) hi
  have hlast : lastD w = w.get ⟨w.length - 1, hi⟩ := lastD_eq_get w hne
  have hDlt : D (lastD w) < p.length := by rw [hlast]; omega
  rcases hinv.closure (lastD w) (by rw [hlast]; exact hmem) with hq | ⟨hex, -⟩
  · exact no_short_queue_path adjacency exits bn be start p rest V D hinv
      (lastD w) hDlt hq
  · rw [hwexit] at hex
    simp at hex

theorem bfsAux_cons_exit (adjacency : List (String × List String))
    (exits bn be : List String) (f : Nat) (path : List String)
    (rest : List (List String)) (V : List String)
    (hex : exits.contains (lastD path) = true) :
    bfsAux adjacency exits bn be (f + 1) (path :: rest) V = some path := by
  show (if exits.contains (lastD path) = true then some path
    else bfsAux adjacency exits bn be f
      (enqueueNeighbors bn be path (lastD path)
        (lookupAdj adjacency (lastD path)) (rest, V)).1
      (enqueueNeighbors bn be path (lastD path)
        (lookupAdj adjacency (lastD path)) (rest, V)).2) = some path
  exact if_pos hex

theorem bfsAux_cons_step (adjacency : List (String × List String))
    (exits bn be : List String) (f : Nat) (path : List String)
    (rest : List (List String)) (V : List String)
    (hex : exits.contains (lastD path) = false) :
    bfsAux adjacency exits bn be (f + 1) (path :: rest) V =
      bfsAux adjacency exits bn be f
        (enqueueNeighbors bn be path (lastD path)
          (lookupAdj adjacency (lastD path)) (rest, V)).1
        (enqueueNeighbors bn be path (lastD path)
          (lookupAdj adjacency (lastD path)) (rest, V)).2 := by
  show (if exits.contains (lastD path) = true then some path
    else bfsAux adjacency exits bn be f
      (enqueueNeighbors bn be path (lastD path)
        (lookupAdj adjacency (lastD path)) (rest, V)).1
      (enqueueNeighbors bn be path (lastD path)
        (lookupAdj adjacency (lastD path)) (rest, V)).2) = _
  exact if_neg (fun hc => Bool.false_ne_true (hex ▸ hc))

/-- Soundness and minimality of the BFS loop under the invariant. -/
theorem bfsAux_spec (adjacency : List (String × List String))
    (exits bn be : List String) (start : String) :
    ∀ (fuel : Nat) (Q : List (List String)) (V : List String) (D : String → Nat),
      BfsInv adjacency exits bn be start Q V D →
      ∀ p, bfsAux adjacency exits bn be fuel Q V = some p →
        (p.head? = some start ∧ List.Chain' (validStep adjacency bn be) p ∧
          p.Nodup ∧ exits.contains (lastD p) = true) ∧
        ∀ w, validWalk adjacency exits start bn be w → p.length ≤ w.length := by
  intro fuel
  induction fuel with
  | zero =>
    intro Q V D _ p hres
    rw [bfsAux] at hres
    exact absurd hres (by simp)
  | succ f ih =>
    intro Q V D hinv p hres
    cases Q with
    | nil =>
      rw [bfsAux] at hres
      exact absurd hres (by simp)
    | cons p0 rest =>
      by_cases hex : exits.contains (lastD p0) = true
      · rw [bfsAux_cons_exit adjacency exits bn be f p0 rest V hex] at hres
        have hpp : p = p0 := by injection hres with h; exact h.symm
        subst hpp
        obtain ⟨h1, h2, h3, -, -⟩ := hinv.pathsValid p (List.mem_cons_self p rest)
        exact ⟨⟨h1, h2, h3, hex⟩,
          fun w hw => inv_min adjacency exits bn be start p rest V D hinv w hw⟩
      · have hexF : exits.contains (lastD p0) = false := by
          rw [← Bool.not_eq_true]; exact hex
        rw [bfsAux_cons_step adjacency exits bn be f p0 rest V hexF] at hres
        exact ih _ _ _ (bfs_step_inv adjacency exits bn be start p0 rest _ V _ D
          hinv hexF rfl) p hres

/-- Every route `bfsEvacuate` returns is a valid simple route, and no valid
hazard-avoiding walk to an exit is shorter. -/
theorem bfsEvacuate_sound_min (adjacency : List (String × List String))
    (exits : List String) (start : String) (bn be : List String)
    (p : List String) (h : bfsEvacuate adjacency exits start bn be = some p) :
    (p.head? = some start ∧ List.Chain' (validStep adjacency bn be) p ∧
      p.Nodup ∧ exits.contains (lastD p) = true ∧ bn.contains start = false) ∧
    ∀ w, validWalk adjacency exits start bn be w → p.length ≤ w.length := by
  rw [bfsEvacuate] at h
  by_cases hb : bn.contains start = true
  · rw [if_pos hb] at h
    exact absurd h (by simp)
  · have hbF : bn.contains start = false := by rw [← Bool.not_eq_true]; exact hb
    rw [if_neg hb] at h
    obtain ⟨hsound, hmin⟩ := bfsAux_spec adjacency exits bn be start
      (bfsFuel adjacency) [[start]] [start] (fun _ => 1)
      (bfs_init_inv adjacency exits bn be start hbF) p h
    exact ⟨⟨hsound.1, hsound.2.1, hsound.2.2.1, hsound.2.2.2, hbF⟩, hmin⟩

/-- All nodes of a chain of valid steps headed by an unblocked node are
unblocked. -/
theorem chain_unblocked (adjacency : List (String × List String))
    (bn be : List String) :
    ∀ (w : List String) (a : String),
      List.Chain' (validStep adjacency bn be) (a :: w) → bn.contains a = false →
      ∀ x ∈ a :: w, bn.contains x = false := by
  intro w
  induction w with
  | nil =>
    intro a _ ha x hx
    simp only [List.mem_singleton] at hx
    subst hx
    exact ha
  | cons b t ih =>
    intro a hchain ha x hx
    rw [List.chain'_cons] at hchain
    obtain ⟨hstep, hchain'⟩ := hchain
    rcases List.mem_cons.mp hx with rfl | hx'
    · exact ha
    · exact ih b hchain' hstep.2.1 x hx'

-- ── Claim C2: returned routes are valid ──

/-- C2: whenever `bfsEvacuate` returns a route, its first element is the
start, its last element is in the exit set, it has no repeated node, every
consecutive pair is a traversable step (listed as adjacent, target node
unblocked, canonical edge key unblocked), and every node on it is
unblocked. -/
theorem bfsEvacuate_valid_route (adjacency : List (String × List String))
    (exits : List String) (start : String) (bn be : List String)
    (p : List String) (h : bfsEvacuate adjacency exits start bn be = some p) :
    p.head? = some start ∧ exits.contains (lastD p) = true ∧ p.Nodup ∧
      List.Chain' (validStep adjacency bn be) p ∧
      ∀ x ∈ p, bn.contains x = false := by
  obtain ⟨⟨h1, h2, h3, h4, h5⟩, -⟩ :=
    bfsEvacuate_sound_min adjacency exits start bn be p h
  refine ⟨h1, h4, h3, h2, ?_⟩
  cases p with
  | nil => simp at h1
  | cons a t =>
    have ha : a = start := by simpa using h1
    subst ha
    exact chain_unblocked adjacency bn be t a h2 h5

/-- Witness for C2 at a concrete graph. -/
theorem bfsEvacuate_valid_route_witness :
    bfsEvacuate [("S", ["A", "E"]), ("A", ["E"])] ["E"] "S" [] [] = some ["S", "E"] ∧
      (["S", "E"] : List String).head? = some "S" ∧
      (["E"] : List String).contains (lastD ["S", "E"]) = true ∧
      (["S", "E"] : List String).Nodup ∧
      List.Chain' (validStep [("S", ["A", "E"]), ("A", ["E"])] [] []) ["S", "E"] ∧
      ∀ x ∈ (["S", "E"] : List String), ([] : List String).contains x = false := by
  refine ⟨by decide, ?_⟩
  have h := bfsEvacuate_valid_route [("S", ["A", "E"]), ("A", ["E"])] ["E"] "S" [] []
    ["S", "E"] (by decide)
  exact h

-- ── Claim C1: returned routes have minimum edge count ──

/-- C1: whenever `bfsEvacuate` returns a route, no valid hazard-avoiding
route from the start to an exit uses fewer edges: the returned route has both
minimum node count and minimum edge count. -/
theorem bfsEvacuate_minimal (adjacency : List (String × List String))
    (exits : List String) (start : String) (bn be : List String)
    (p w : List String) (h : bfsEvacuate adjacency exits start bn be = some p)
    (hw : isValidRoute adjacency exits start bn be w) :
    p.length ≤ w.length ∧ p.length - 1 ≤ w.length - 1 := by
  obtain ⟨-, hmin⟩ := bfsEvacuate_sound_min adjacency exits start bn be p h
  have := hmin w hw.1
  exact ⟨this, by omega⟩

/-- Witness for C1: on a diamond with a shortcut, the returned 2-node route
is no longer than the valid 3-node route. -/
theorem bfsEvacuate_minimal_witness :
    bfsEvacuate [("S", ["A", "E"]), ("A", ["E"])] ["E"] "S" [] [] = some ["S", "E"] ∧
      isValidRoute [("S", ["A", "E"]), ("A", ["E"])] ["E"] "S" [] [] ["S", "A", "E"] ∧
      (["S", "E"] : List String).length ≤ (["S", "A", "E"] : List String).length ∧
      (["S", "E"] : List String).length - 1 ≤ (["S", "A", "E"] : List String).length - 1 :=
  ⟨by decide, by decide,
    bfsEvacuate_minimal [("S", ["A", "E"]), ("A", ["E"])] ["E"] "S" [] []
      ["S", "E"] ["S", "A", "E"] (by decide) (by decide)⟩

-- ── Claim C4: findAlternativePaths ──

theorem contains_cons_false {x n : String} {l : List String}
    (h : (n :: l).contains x = false) : l.contains x = false := by
  rw [contains_false_iff] at h ⊢
  exact fun hx => h (List.mem_cons_of_mem n hx)

theorem validStep_mono (adjacency : List (String × List String)) (n : String)
    (bn be : List String) (u v : String)
    (h : validStep adjacency (n :: bn) be u v) : validStep adjacency bn be u v :=
  ⟨h.1, contains_cons_false h.2.1, h.2.2⟩

theorem validWalk_mono (adjacency : List (String × List String))
    (exits : List String) (start : String) (n : String) (bn be : List String)
    (w : List String) (h : validWalk adjacency exits start (n :: bn) be w) :
    validWalk adjacency exits start bn be w :=
  ⟨h.1, contains_cons_false h.2.1,
    h.2.2.1.imp (fun a b hs => validStep_mono adjacency n bn be a b hs), h.2.2.2⟩

theorem isValidRoute_mono (adjacency : List (String × List String))
    (exits : List String) (start : String) (n : String) (bn be : List String)
    (w : List String) (h : isValidRoute adjacency exits start (n :: bn) be w) :
    isValidRoute adjacency exits start bn be w :=
  ⟨validWalk_mono adjacency exits start n bn be w h.1, h.2⟩

/-- Shared soundness corollary: a returned route is a valid simple route and
stays clear of every blocked node. -/
theorem bfsEvacuate_route_valid (adjacency : List (String × List String))
    (exits : List String) (start : String) (bn be : List String)
    (p : List String) (h : bfsEvacuate adjacency exits start bn be = some p) :
    isValidRoute adjacency exits start bn be p ∧ ∀ x ∈ p, bn.contains x = false := by
  obtain ⟨⟨h1, h2, h3, h4, h5⟩, -⟩ :=
    bfsEvacuate_sound_min adjacency exits start bn be p h
  refine ⟨⟨⟨h1, h5, h2, h4⟩, h3⟩, ?_⟩
  cases p with
  | nil => simp at h1
  | cons a t =>
    have ha : a = start := by simpa using h1
    subst ha
    exact chain_unblocked adjacency bn be t a h2 h5

theorem tryInterior_some (adjacency : List (String × List String))
    (exits : List String) (start : String) (bn be used : List String) :
    ∀ (ns : List String) (alt : List String),
      tryInterior adjacency exits start bn be used ns = some alt →
      used.contains (joinPath alt) = false ∧
        ∃ n ∈ ns, bfsEvacuate adjacency exits start (n :: bn) be = some alt := by
  intro ns
  induction ns with
  | nil =>
    intro alt h
    exact absurd h (by simp [tryInterior])
  | cons n rest ih =>
    intro alt h
    cases hbfs : bfsEvacuate adjacency exits start (n :: bn) be with
    | none =>
      simp only [tryInterior, hbfs] at h
      obtain ⟨h1, n', hn', h2⟩ := ih alt h
      exact ⟨h1, n', List.mem_cons_of_mem n hn', h2⟩
    | some alt0 =>
      simp only [tryInterior, hbfs] at h
      by_cases hused : used.contains (joinPath alt0) = true
      · rw [if_pos hused] at h
        obtain ⟨h1, n', hn', h2⟩ := ih alt h
        exact ⟨h1, n', List.mem_cons_of_mem n hn', h2⟩
      · rw [if_neg hused] at h
        have halt : alt0 = alt := by injection h
        subst halt
        exact ⟨by rw [← Bool.not_eq_true]; exact hused,
          n, List.mem_cons_self n rest, hbfs⟩

theorem altLoop_spec (adjacency : List (String × List String))
    (exits : List String) (start : String) (bn be : List String) :
    ∀ (k : Nat) (used : List String) (acc : List (List String)) (prev : List String),
      (∀ a ∈ acc, joinPath a ∈ used) →
      (acc.map joinPath).Nodup →
      (∀ a ∈ acc, isValidRoute adjacency exits start bn be a) →
      ∃ extra,
        altLoop adjacency exits start bn be k used acc prev = acc ++ extra ∧
        (altLoop adjacency exits start bn be k used acc prev).length ≤ acc.length + k ∧
        ((altLoop adjacency exits start bn be k used acc prev).map joinPath).Nodup ∧
        ∀ a ∈ altLoop adjacency exits start bn be k used acc prev,
          isValidRoute adjacency exits start bn be a := by
  intro k
  induction k with
  | zero =>
    intro used acc prev hused hnodup hvalid
    exact ⟨[], by simp [altLoop], by simp [altLoop], by simpa [altLoop], by
      intro a ha; rw [show altLoop adjacency exits start bn be 0 used acc prev = acc
        from rfl] at ha; exact hvalid a ha⟩
  | succ k ih =>
    intro used acc prev hused hnodup hvalid
    cases htry : tryInterior adjacency exits start bn be used (interiorNodes prev) with
    | none =>
      simp only [altLoop, htry]
      exact ⟨[], by simp, Nat.le_add_right _ _, hnodup, hvalid⟩
    | some alt =>
      obtain ⟨haltused, n, hn, hbfs⟩ :=
        tryInterior_some adjacency exits start bn be used (interiorNodes prev) alt htry
      have haltvalid : isValidRoute adjacency exits start bn be alt :=
        isValidRoute_mono adjacency exits start n bn be alt
          (bfsEvacuate_route_valid adjacency exits start (n :: bn) be alt hbfs).1
      have hused' : ∀ a ∈ acc ++ [alt], joinPath a ∈ joinPath alt :: used := by
        intro a ha
        rcases List.mem_append.mp ha with ha | ha
        · exact List.mem_cons_of_mem _ (hused a ha)
        · simp only [List.mem_singleton] at ha
          subst ha
          exact List.mem_cons_self _ _
      have hnodup' : ((acc ++ [alt]).map joinPath).Nodup := by
        rw [List.map_append, List.nodup_append]
        refine ⟨hnodup, by simp, ?_⟩
        intro x hx hx'
        simp only [List.map_cons, List.map_nil, List.mem_singleton] at hx'
        subst hx'
        rcases List.mem_map.mp hx with ⟨a, ha, hja⟩
        have : joinPath alt ∈ used := hja ▸ hused a ha
        rw [contains_false_iff] at haltused
        exact haltused this
      have hvalid' : ∀ a ∈ acc ++ [alt], isValidRoute adjacency exits start bn be a := by
        intro a ha
        rcases List.mem_append.mp ha with ha | ha
        · exact hvalid a ha
        · simp only [List.mem_singleton] at ha
          subst ha
          exact haltvalid
      obtain ⟨extra', heq, hlen, hnd, hval⟩ :=
        ih (joinPath alt :: used) (acc ++ [alt]) alt hused' hnodup' hvalid'
      refine ⟨[alt] ++ extra', ?_, ?_, ?_, ?_⟩
      · simp only [altLoop, htry]
        rw [heq, List.append_assoc]
      · simp only [altLoop, htry]
        rw [show (acc ++ [alt]).length = acc.length + 1 by simp] at hlen
        omega
      · simp only [altLoop, htry]
        exact hnd
      · simp only [altLoop, htry]
        exact hval

theorem interiorNodes_subset (p : List String) : ∀ x ∈ interiorNodes p, x ∈ p := by
  intro x hx
  unfold interiorNodes at hx
  exact List.drop_subset 1 p (List.dropLast_subset _ hx)

theorem tryInterior_none_of_unique (adjacency : List (String × List String))
    (exits : List String) (start : String) (bn be used : List String)
    (optimal : List String)
    (hU : ∀ w, isValidRoute adjacency exits start bn be w → w = optimal) :
    ∀ ns, (∀ n ∈ ns, n ∈ optimal) →
      tryInterior adjacency exits start bn be used ns = none := by
  intro ns
  induction ns with
  | nil => intro _; rfl
  | cons n rest ih =>
    intro hns
    have hbfs : bfsEvacuate adjacency exits start (n :: bn) be = none := by
      cases hbfs : bfsEvacuate adjacency exits start (n :: bn) be with
      | none => rfl
      | some alt =>
        obtain ⟨hvalid, hclear⟩ :=
          bfsEvacuate_route_valid adjacency exits start (n :: bn) be alt hbfs
        have halt : alt = optimal :=
          hU alt (isValidRoute_mono adjacency exits start n bn be alt hvalid)
        have hmem : n ∈ alt := halt ▸ hns n (List.mem_cons_self n rest)
        have := hclear n hmem
        rw [contains_false_iff] at this
        exact absurd (List.mem_cons_self n bn) this
    simp only [tryInterior, hbfs]
    exact ih (fun m hm => hns m (List.mem_cons_of_mem n hm))

/-- C4 counterexample: with `count = 0` the function still returns the one
shortest route, so its length exceeds `count` (the claim's "between 1 and
count" fails). -/
theorem findAlternativePaths_count_zero_overflow :
    bfsEvacuate [("S", ["E"])] ["E"] "S" [] [] = some ["S", "E"] ∧
      (findAlternativePaths [("S", ["E"])] ["E"] "S" [] [] 0).length = 1 ∧
      ¬ (findAlternativePaths [("S", ["E"])] ["E"] "S" [] [] 0).length ≤ 0 :=
  ⟨by decide, by decide, by decide⟩

/-- C4 amended (restricted to `count ≥ 1`; for `count = 0` the code still
returns the single shortest route): `findAlternativePaths` returns the empty
sequence exactly when `bfsEvacuate` finds nothing; otherwise it returns
between 1 and `count` pairwise-distinct valid routes headed by the shortest
route, and exactly one route when only one valid route exists. -/
theorem findAlternativePaths_spec (adjacency : List (String × List String))
    (exits : List String) (start : String) (bn be : List String) (count : Nat)
    (hc : 1 ≤ count) :
    (findAlternativePaths adjacency exits start bn be count = [] ↔
      bfsEvacuate adjacency exits start bn be = none) ∧
    ∀ optimal, bfsEvacuate adjacency exits start bn be = some optimal →
      (findAlternativePaths adjacency exits start bn be count).head? = some optimal ∧
      1 ≤ (findAlternativePaths adjacency exits start bn be count).length ∧
      (findAlternativePaths adjacency exits start bn be count).length ≤ count ∧
      (findAlternativePaths adjacency exits start bn be count).Nodup ∧
      (∀ r ∈ findAlternativePaths adjacency exits start bn be count,
        isValidRoute adjacency exits start bn be r) ∧
      ((∀ w, isValidRoute adjacency exits start bn be w → w = optimal) →
        (findAlternativePaths adjacency exits start bn be count).length = 1) := by
  cases hbfs : bfsEvacuate adjacency exits start bn be with
  | none =>
    constructor
    · simp [findAlternativePaths, hbfs]
    · intro optimal hopt
      exact absurd hopt (by simp)
  | some opt =>
    have hval : isValidRoute adjacency exits start bn be opt :=
      (bfsEvacuate_route_valid adjacency exits start bn be opt hbfs).1
    obtain ⟨extra, heq, hlen, hnd, hvalall⟩ :=
      altLoop_spec adjacency exits start bn be (count - 1) [joinPath opt] [opt] opt
        (by intro a ha; simp only [List.mem_singleton] at ha; subst ha; simp)
        (by simp)
        (by intro a ha; simp only [List.mem_singleton] at ha; subst ha; exact hval)
    have hfind : findAlternativePaths adjacency exits start bn be count =
        altLoop adjacency exits start bn be (count - 1) [joinPath opt] [opt] opt := by
      simp only [findAlternativePaths, hbfs]
    constructor
    · rw [hfind, heq]
      constructor
      · intro hcon
        exact absurd hcon (by simp)
      · intro hcon
        exact absurd hcon (by simp)
    · intro optimal hopt
      have hoo : opt = optimal := by injection hopt
      subst hoo
      refine ⟨?_, ?_, ?_, ?_, ?_, ?_⟩
      · rw [hfind, heq, List.singleton_append]; rfl
      · rw [hfind, heq]; simp
      · rw [hfind]
        rw [show ([opt] : List (List String)).length = 1 from rfl] at hlen
        omega
      · rw [hfind]
        exact hnd.of_map joinPath
      · rw [hfind]
        exact hvalall
      · intro hU
        rw [hfind]
        cases hcount : count - 1 with
        | zero => rfl
        | succ m =>
          have htry : tryInterior adjacency exits start bn be [joinPath opt]
              (interiorNodes opt) = none :=
            tryInterior_none_of_unique adjacency exits start bn be [joinPath opt]
              opt hU (interiorNodes opt) (interiorNodes_subset opt)
          simp only [altLoop, htry]
          rfl

/-- Witness for C4 at `count = 3` on a two-node graph with a unique route. -/
theorem findAlternativePaths_spec_witness :
    (1 ≤ 3) ∧
      ((findAlternativePaths [("S", ["E"])] ["E"] "S" [] [] 3 = [] ↔
        bfsEvacuate [("S", ["E"])] ["E"] "S" [] [] = none) ∧
      ∀ optimal, bfsEvacuate [("S", ["E"])] ["E"] "S" [] [] = some optimal →
        (findAlternativePaths [("S", ["E"])] ["E"] "S" [] [] 3).head? = some optimal ∧
        1 ≤ (findAlternativePaths [("S", ["E"])] ["E"] "S" [] [] 3).length ∧
        (findAlternativePaths [("S", ["E"])] ["E"] "S" [] [] 3).length ≤ 3 ∧
        (findAlternativePaths [("S", ["E"])] ["E"] "S" [] [] 3).Nodup ∧
        (∀ r ∈ findAlternativePaths [("S", ["E"])] ["E"] "S" [] [] 3,
          isValidRoute [("S", ["E"])] ["E"] "S" [] [] r) ∧
        ((∀ w, isValidRoute [("S", ["E"])] ["E"] "S" [] [] w → w = optimal) →
          (findAlternativePaths [("S", ["E"])] ["E"] "S" [] [] 3).length = 1)) :=
  ⟨by decide, findAlternativePaths_spec [("S", ["E"])] ["E"] "S" [] [] 3 (by decide)⟩

end Evac
